import Mathlib

/-!
Bloom filter of `core/bloom/cbloom.go`.

A shallow embedding of the Go type `BloomFilter` and of its methods.

* `uint` is the 64-bit unsigned integer of the usual Go targets; values are
  natural numbers and the only wrapping operation of the code, the FNV-1a
  multiplication, is reduced modulo `2 ^ 64` explicitly.
* A byte slice `[]byte` is a `List UInt8`, the bit array `[]bool` a `List Bool`.
* A method with a pointer receiver is a function from the state before the call
  to the state after it; a run-time panic (integer division by zero, index out
  of range) is a result `Except.error`.
* `make([]bool, size)` is the list of `size` times `false`; the memory limit of
  the allocator is outside the model.
-/

namespace bloom

/-- Run-time panics that the methods of the filter can raise. -/
inductive Panic where
  | divideByZero
  | indexOutOfRange
  deriving DecidableEq, Repr

/-- The Go struct `BloomFilter`: bit array, its declared size, number of hash rounds. -/
structure BloomFilter where
  bitset : List Bool
  size : Nat
  hashCount : Nat
  deriving DecidableEq, Repr

/-- Offset basis of 64-bit FNV (`hash/fnv`, `offset64`). -/
def fnvOffset64 : Nat := 14695981039346656037

/-- Multiplier of 64-bit FNV (`hash/fnv`, `prime64`). -/
def fnvPrime64 : Nat := 1099511628211

/-- One round of FNV-1a on 64 bits: xor the byte in, multiply, wrap. -/
def fnv1aStep (h : Nat) (b : UInt8) : Nat :=
  ((h ^^^ b.toNat) * fnvPrime64) % 2 ^ 64

/-- The hash `fnv.New64a()` after `Write(data)`, read with `Sum64()`. -/
def fnv1a64 (data : List UInt8) : Nat :=
  data.foldl fnv1aStep fnvOffset64

/-- The conversion `byte(index)` of a `uint`: the low eight bits. -/
def byteOfUint (index : Nat) : UInt8 :=
  UInt8.ofNat (index % 256)

/-- Method `hash`: FNV-1a of `append(item, byte(index))`. The receiver is not read. -/
def BloomFilter.hash (_bf : BloomFilter) (item : List UInt8) (index : Nat) : Nat :=
  fnv1a64 (item ++ [byteOfUint index])

/-- The index of the bit that round `t` of `Add` and `Contains` touches. -/
def BloomFilter.position (bf : BloomFilter) (item : List UInt8) (t : Nat) : Nat :=
  bf.hash item t % bf.size

/-- Constructor `NewC`: the arguments are stored as given. -/
def NewC (size hashCount : Nat) : BloomFilter :=
  { bitset := List.replicate size false, size := size, hashCount := hashCount }

/-- The body of the loop of `Add`, for the rounds `i, i + 1, ...`; the first
argument counts the rounds still to run (`hashCount - i`). -/
def BloomFilter.addFrom (item : List UInt8) : Nat → Nat → BloomFilter → Except Panic BloomFilter
  | 0, _, bf => .ok bf
  | k + 1, i, bf =>
    if bf.size = 0 then .error .divideByZero
    else
      let position := bf.hash item i % bf.size
      if position < bf.bitset.length then
        BloomFilter.addFrom item k (i + 1) { bf with bitset := bf.bitset.set position true }
      else .error .indexOutOfRange

/-- Method `Add`: `for i := uint(0); i < bf.hashCount; i++ { ... }`. -/
def BloomFilter.Add (bf : BloomFilter) (item : List UInt8) : Except Panic BloomFilter :=
  BloomFilter.addFrom item bf.hashCount 0 bf

/-- The body of the loop of `Contains`, for the rounds `i, i + 1, ...`; the
first numeric argument counts the rounds still to run. -/
def BloomFilter.containsFrom (bf : BloomFilter) (item : List UInt8) : Nat → Nat → Except Panic Bool
  | 0, _ => .ok true
  | k + 1, i =>
    if bf.size = 0 then .error .divideByZero
    else
      let position := bf.hash item i % bf.size
      match bf.bitset[position]? with
      | none => .error .indexOutOfRange
      | some b => if !b then .ok false else BloomFilter.containsFrom bf item k (i + 1)

/-- Method `Contains`: the answer together with the state after the call. The
body holds no assignment to the receiver, so that state is the receiver. -/
def BloomFilter.Contains (bf : BloomFilter) (item : List UInt8) : Except Panic (Bool × BloomFilter) :=
  (BloomFilter.containsFrom bf item bf.hashCount 0).map fun b => (b, bf)

/-- Method `Clear`: `bf.bitset = make([]bool, bf.size)`. -/
def BloomFilter.Clear (bf : BloomFilter) : BloomFilter :=
  { bf with bitset := List.replicate bf.size false }

/-- A sequence of `Add` calls, in order; it stops at the first panic. -/
def BloomFilter.addAll : BloomFilter → List (List UInt8) → Except Panic BloomFilter
  | bf, [] => .ok bf
  | bf, item :: rest =>
    match bf.Add item with
    | .ok bf1 => BloomFilter.addAll bf1 rest
    | .error e => .error e

/-- The floating-point operations of Go that the size estimates use. Their
rounding and the result of converting an unrepresentable value to `uint` depend
on the platform, so they are parameters of the embedding. -/
structure Float64Ops (F : Type) where
  ofUint : Nat → F
  ofLit : Nat → F
  neg : F → F
  mul : F → F → F
  div : F → F → F
  log : F → F
  pow : F → F → F
  ceil : F → F
  round : F → F
  max : F → F → F
  toUint : F → Nat

/-- Function `calculateOptimalSize`:
`uint(math.Ceil(-float64(n) * math.Log(p) / math.Pow(math.Log(2), 2)))`. -/
def calculateOptimalSize {F : Type} (ops : Float64Ops F) (n : Nat) (falsePositiveRate : F) : Nat :=
  let size := ops.div (ops.mul (ops.neg (ops.ofUint n)) (ops.log falsePositiveRate))
    (ops.pow (ops.log (ops.ofLit 2)) (ops.ofLit 2))
  ops.toUint (ops.ceil size)

/-- Function `calculateOptimalHashCount`:
`uint(math.Max(1, math.Round(float64(size) / float64(n) * math.Log(2))))`. -/
def calculateOptimalHashCount {F : Type} (ops : Float64Ops F) (size n : Nat) : Nat :=
  let hashCount := ops.mul (ops.div (ops.ofUint size) (ops.ofUint n)) (ops.log (ops.ofLit 2))
  ops.toUint (ops.max (ops.ofLit 1) (ops.round hashCount))

/-- Constructor `NewWithEstimates`. -/
def NewWithEstimates {F : Type} (ops : Float64Ops F) (n : Nat) (falsePositiveRate : F) :
    BloomFilter :=
  let size := calculateOptimalSize ops n falsePositiveRate
  let hashCount := calculateOptimalHashCount ops size n
  { bitset := List.replicate size false, size := size, hashCount := hashCount }

/-- The operations on Lean's binary64 `Float`, for running the estimates. The
conversion to `uint` saturates here. -/
def leanFloatOps : Float64Ops Float where
  ofUint := Float.ofNat
  ofLit := Float.ofNat
  neg := fun x => -x
  mul := fun x y => x * y
  div := fun x y => x / y
  log := Float.log
  pow := Float.pow
  ceil := Float.ceil
  round := Float.round
  max := fun x y => if x.isNaN || y.isNaN then 0 / 0 else if x < y then y else x
  toUint := fun x => x.toUInt64.toNat

/-- The key `"apple"` of `TestCustomBloomFilter`, as bytes. -/
def apple : List UInt8 := [97, 112, 112, 108, 101]

/-- The key `"banana"` of `TestCustomBloomFilter`, as bytes. -/
def banana : List UInt8 := [98, 97, 110, 97, 110, 97]

/-- The key `"cherry"` of `TestCustomBloomFilter`, as bytes. -/
def cherry : List UInt8 := [99, 104, 101, 114, 114, 121]

/-- Facts of IEEE-754 arithmetic and of Go's `math` package that the run of
`calculateOptimalSize` on `n = 0` goes through. `isZero x` reads "x is `+0` or
`-0`", `isRegular x` reads "x is finite and not a zero", `inUnit p` reads
"`0 < p < 1`": the conversion of `0` is a zero; negating a zero, multiplying or
dividing a zero by a regular value and rounding a zero up give a zero; a zero
converts to the `uint` `0`; the logarithm of a value strictly between 0 and 1
is regular, and so is `math.Pow(math.Log(2), 2)`. -/
structure ZeroLaws {F : Type} (ops : Float64Ops F) (isZero isRegular inUnit : F → Prop) :
    Prop where
  ofUint_zero : isZero (ops.ofUint 0)
  neg_zero : ∀ x, isZero x → isZero (ops.neg x)
  mul_zero : ∀ x y, isZero x → isRegular y → isZero (ops.mul x y)
  div_zero : ∀ x y, isZero x → isRegular y → isZero (ops.div x y)
  ceil_zero : ∀ x, isZero x → isZero (ops.ceil x)
  toUint_zero : ∀ x, isZero x → ops.toUint x = 0
  log_unit : ∀ p, inUnit p → isRegular (ops.log p)
  pow_log_two : isRegular (ops.pow (ops.log (ops.ofLit 2)) (ops.ofLit 2))

/-- Exact rational arithmetic, with `x - 1` standing in for the logarithm: an
instance of the operations on which `ZeroLaws` can be checked by computation. -/
def ratOps : Float64Ops ℚ where
  ofUint := fun n => (n : ℚ)
  ofLit := fun n => (n : ℚ)
  neg := fun x => -x
  mul := fun x y => x * y
  div := fun x y => x / y
  log := fun x => x - 1
  pow := fun x y => x ^ ⌊y⌋.toNat
  ceil := fun x => (⌈x⌉ : ℚ)
  round := fun x => (round x : ℚ)
  max := fun x y => max x y
  toUint := fun x => ⌊x⌋.toNat

/-- The `float64` that `calculateOptimalSize` converts to `uint`:
`math.Ceil(-float64(n) * math.Log(p) / math.Pow(math.Log(2), 2))`. -/
def optimalSizeFloat {F : Type} (ops : Float64Ops F) (n : Nat) (falsePositiveRate : F) : F :=
  ops.ceil (ops.div (ops.mul (ops.neg (ops.ofUint n)) (ops.log falsePositiveRate))
    (ops.pow (ops.log (ops.ofLit 2)) (ops.ofLit 2)))

/-- Facts of IEEE-754 arithmetic and of Go's `math` package that the estimates
go through on `n >= 1` and `0 < p < 1`. The predicates read: `inUnit p`,
"`0 < p < 1`"; `geOne x`, "x is not NaN and `x >= 1`" (`+Inf` included);
`leNegOne x`, "`x <= -1`" (`-Inf` included); `isNeg x`, "x is not NaN and
`x < 0`"; `isPos x`, "x is not NaN and `x > 0`" (`+Inf` included);
`fitsUint x`, "x is not NaN and `x < 2^64`"; `nonNeg x`, "x is finite and
`0 <= x <= 2^64`"; `below x`, "x is finite and `0 <= x < 2^64`".

* A `uint` `n >= 1` converts to a value `>= 1`, any `uint` to a value in
  `[0, 2^64]`; negation maps `>= 1` to `<= -1`.
* The logarithm of a value strictly between 0 and 1 is negative.
* The product of a value `<= -1` and a negative value is positive (its
  magnitude is at least that of the second factor, so it does not round to 0).
* Dividing by `math.Pow(math.Log(2), 2)`, a value between 0 and 1, keeps a
  positive value positive; `math.Ceil` of a positive value is `>= 1`.
* The conversion to `uint` of a value `>= 1` and `< 2^64` is a `uint` `>= 1`
  (outside that range Go leaves the conversion to the implementation).
* Dividing a value in `[0, 2^64]` by a value `>= 1` stays in `[0, 2^64]`;
  multiplying it by `math.Log(2)`, about `0.693`, lands in `[0, 2^64)`;
  `math.Round` maps `[0, 2^64)` into itself; `math.Max(1, x)` for `x` in
  `[0, 2^64)` is `>= 1` and `< 2^64`. -/
structure EstimateLaws {F : Type} (ops : Float64Ops F)
    (inUnit geOne leNegOne isNeg isPos fitsUint nonNeg below : F → Prop) : Prop where
  ofUint_geOne : ∀ n, 1 ≤ n → n < 2 ^ 64 → geOne (ops.ofUint n)
  ofUint_nonNeg : ∀ m, m < 2 ^ 64 → nonNeg (ops.ofUint m)
  neg_geOne : ∀ x, geOne x → leNegOne (ops.neg x)
  log_unit : ∀ p, inUnit p → isNeg (ops.log p)
  mul_neg : ∀ x y, leNegOne x → isNeg y → isPos (ops.mul x y)
  div_pow_log_two : ∀ x, isPos x →
    isPos (ops.div x (ops.pow (ops.log (ops.ofLit 2)) (ops.ofLit 2)))
  ceil_pos : ∀ x, isPos x → geOne (ops.ceil x)
  toUint_geOne : ∀ x, geOne x → fitsUint x → 1 ≤ ops.toUint x ∧ ops.toUint x < 2 ^ 64
  div_geOne : ∀ x y, nonNeg x → geOne y → nonNeg (ops.div x y)
  mul_log_two : ∀ x, nonNeg x → below (ops.mul x (ops.log (ops.ofLit 2)))
  round_below : ∀ x, below x → below (ops.round x)
  max_one : ∀ x, below x →
    geOne (ops.max (ops.ofLit 1) x) ∧ fitsUint (ops.max (ops.ofLit 1) x)

end bloom

/-!
Probability gate of `core/mathx/proba.go`.

The mutex of `Proba` is free between calls and every call releases it before
it returns; a call is one atomic step of the embedding. The generator
`*rand.Rand` of the standard library is the sequence of values that its method
`Float64` will return, together with the number of values drawn so far.
-/

namespace mathx

/-- A `float64` as the comparison operators see it: not-a-number, the two
infinities, or a finite value (every finite `float64` is a rational; the two
zeros compare equal). -/
inductive Float64 where
  | nan
  | negInf
  | posInf
  | finite (q : ℚ)

/-- The Go operator `<` on `float64`: false whenever an operand is NaN. -/
def Float64.lt : Float64 → Float64 → Bool
  | .nan, _ => false
  | _, .nan => false
  | _, .negInf => false
  | .negInf, _ => true
  | .posInf, _ => false
  | .finite _, .posInf => true
  | .finite a, .finite b => decide (a < b)

/-- The Go operator `<=` on `float64`: false whenever an operand is NaN. -/
def Float64.le : Float64 → Float64 → Bool
  | .nan, _ => false
  | _, .nan => false
  | .negInf, _ => true
  | _, .posInf => true
  | _, .negInf => false
  | .posInf, _ => false
  | .finite a, .finite b => decide (a ≤ b)

/-- The generator `*rand.Rand`: the values `Float64()` returns, in order, and
how many of them have been drawn. -/
structure Rand where
  draws : Nat → Float64
  pos : Nat

/-- Method `(*rand.Rand).Float64`: the next value, and the generator after it. -/
def Rand.Float64 (r : Rand) : Float64 × Rand :=
  (r.draws r.pos, { r with pos := r.pos + 1 })

/-- The Go struct `Proba`: the private generator (the mutex is not a field of
the embedding). -/
structure Proba where
  r : Rand

/-- Method `TrueOnProba`: `truth = p.r.Float64() < proba` between `Lock` and
`Unlock`; the answer and the gate after the call. -/
def Proba.TrueOnProba (p : Proba) (proba : Float64) : Bool × Proba :=
  let drawn := p.r.Float64
  let truth := drawn.1.lt proba
  (truth, { p with r := drawn.2 })

end mathx

/-!
Readiness folding of `internal/health/health.go`.

A `Probe` is an interface value; the embedding keeps what its methods `IsReady`
and `Name` return at the time of the call. The mutex of `comboHealthManager`
is free between calls and released by every call.
-/

namespace health

/-- A value of the interface `Probe`, by what `IsReady()` and `Name()` return. -/
structure Probe where
  ready : Bool
  name : String
  deriving DecidableEq, Repr

/-- Method `IsReady` of a probe. -/
def Probe.IsReady (probe : Probe) : Bool := probe.ready

/-- The Go struct `comboHealthManager`: the registered probes, oldest first. -/
structure comboHealthManager where
  probes : List Probe
  deriving DecidableEq, Repr

/-- Function `newComboHealthManager`: `&comboHealthManager{}`, no probes. -/
def newComboHealthManager : comboHealthManager :=
  { probes := [] }

/-- The loop `for _, probe := range p.probes { if !probe.IsReady() { return false } }`
followed by `return true`. -/
def comboHealthManager.allReady : List Probe → Bool
  | [] => true
  | probe :: rest => if !probe.IsReady then false else comboHealthManager.allReady rest

/-- Method `IsReady` of the manager. -/
def comboHealthManager.IsReady (p : comboHealthManager) : Bool :=
  if p.probes.length == 0 then false
  else comboHealthManager.allReady p.probes

/-- Method `addProbe`: `p.probes = append(p.probes, probe)`. -/
def comboHealthManager.addProbe (p : comboHealthManager) (probe : Probe) : comboHealthManager :=
  { p with probes := p.probes ++ [probe] }

end health

namespace bloom

/-! ## Lemmas on the loops -/

theorem hash_receiver (bf bf' : BloomFilter) (item : List UInt8) (i : Nat) :
    bf.hash item i = bf'.hash item i := rfl

theorem position_congr (bf bf' : BloomFilter) (item : List UInt8) (t : Nat)
    (h : bf'.size = bf.size) : bf'.position item t = bf.position item t := by
  simp [BloomFilter.position, h, hash_receiver bf' bf]

theorem position_lt (bf : BloomFilter) (item : List UInt8) (t : Nat) (h : 1 ≤ bf.size) :
    bf.position item t < bf.size :=
  Nat.mod_lt _ h

theorem addFrom_succ (item : List UInt8) (k i : Nat) (bf : BloomFilter) :
    BloomFilter.addFrom item (k + 1) i bf =
      if bf.size = 0 then .error .divideByZero
      else if bf.position item i < bf.bitset.length then
        BloomFilter.addFrom item k (i + 1)
          { bf with bitset := bf.bitset.set (bf.position item i) true }
      else .error .indexOutOfRange := rfl

/-- What a completed run of the loop of `Add` has done. -/
theorem addFrom_ok (item : List UInt8) :
    ∀ (k i : Nat) (bf bf' : BloomFilter), BloomFilter.addFrom item k i bf = .ok bf' →
      bf'.size = bf.size ∧ bf'.hashCount = bf.hashCount ∧
      bf'.bitset.length = bf.bitset.length ∧
      (k = 0 ∨ bf.size ≠ 0) ∧
      (∀ t, i ≤ t → t < i + k → bf.position item t < bf.bitset.length) ∧
      (∀ t, i ≤ t → t < i + k → bf'.bitset[bf.position item t]? = some true) ∧
      (∀ j : Nat, (∀ t, i ≤ t → t < i + k → bf.position item t ≠ j) →
        bf'.bitset[j]? = bf.bitset[j]?) := by
  intro k
  induction k with
  | zero =>
    intro i bf bf' h
    simp only [BloomFilter.addFrom, Except.ok.injEq] at h
    subst h
    refine ⟨rfl, rfl, rfl, Or.inl rfl, ?_, ?_, ?_⟩
    · intro t h1 h2; omega
    · intro t h1 h2; omega
    · intro j _; rfl
  | succ k ih =>
    intro i bf bf' h
    rw [addFrom_succ] at h
    by_cases hs : bf.size = 0
    · simp [hs] at h
    · rw [if_neg hs] at h
      by_cases hp : bf.position item i < bf.bitset.length
      · rw [if_pos hp] at h
        obtain ⟨h1, h2, h3, -, h5, h6, h7⟩ := ih (i + 1) _ bf' h
        have hpos : ∀ t, BloomFilter.position
            { bf with bitset := bf.bitset.set (bf.position item i) true } item t
            = bf.position item t := fun t => rfl
        simp only [hpos, List.length_set] at h1 h2 h3 h5 h6 h7
        refine ⟨h1, h2, h3, Or.inr hs, ?_, ?_, ?_⟩
        · intro t ht1 ht2
          by_cases hti : t = i
          · subst hti; exact hp
          · exact h5 t (by omega) (by omega)
        · intro t ht1 ht2
          by_cases hlater : ∃ u, i + 1 ≤ u ∧ u < i + 1 + k ∧
              bf.position item u = bf.position item t
          · obtain ⟨u, hu1, hu2, hu3⟩ := hlater
            rw [← hu3]
            exact h6 u hu1 hu2
          · have hti : t = i := by
              by_contra hne
              exact hlater ⟨t, by omega, by omega, rfl⟩
            subst hti
            rw [h7 _ (fun u hu1 hu2 hu3 => hlater ⟨u, hu1, hu2, hu3⟩)]
            exact List.getElem?_set_self hp
        · intro j hj
          rw [h7 j (fun t ht1 ht2 => hj t (by omega) (by omega))]
          exact List.getElem?_set_ne (hj i (le_refl _) (by omega))
      · rw [if_neg hp] at h
        simp at h

/-- The loop of `Add` completes when the size is not zero and every position
it computes is an index of the bit array. -/
theorem addFrom_total (item : List UInt8) :
    ∀ (k i : Nat) (bf : BloomFilter), bf.size ≠ 0 →
      (∀ t, i ≤ t → t < i + k → bf.position item t < bf.bitset.length) →
      ∃ bf', BloomFilter.addFrom item k i bf = .ok bf' := by
  intro k
  induction k with
  | zero => intro i bf _ _; exact ⟨bf, rfl⟩
  | succ k ih =>
    intro i bf hs hin
    rw [addFrom_succ, if_neg hs, if_pos (hin i (le_refl _) (by omega))]
    apply ih
    · exact hs
    · intro t ht1 ht2
      have := hin t (by omega) (by omega)
      simpa [BloomFilter.position, BloomFilter.hash] using this

/-- Running the loop of `Add` over rounds whose bits are all set already
changes nothing. -/
theorem addFrom_noop (item : List UInt8) :
    ∀ (k i : Nat) (bf : BloomFilter), (k = 0 ∨ bf.size ≠ 0) →
      (∀ t, i ≤ t → t < i + k → bf.bitset[bf.position item t]? = some true) →
      BloomFilter.addFrom item k i bf = .ok bf := by
  intro k
  induction k with
  | zero => intro i bf _ _; rfl
  | succ k ih =>
    intro i bf hs hset
    have hs0 : bf.size ≠ 0 := by
      rcases hs with h | h
      · omega
      · exact h
    have hi := hset i (le_refl _) (by omega)
    obtain ⟨hlt, hval⟩ := List.getElem?_eq_some.mp hi
    have hsame : bf.bitset.set (bf.position item i) true = bf.bitset := by
      apply List.ext_getElem?
      intro n
      rw [List.getElem?_set]
      by_cases hn : bf.position item i = n
      · rw [if_pos hn, if_pos hlt, ← hn, hi]
      · rw [if_neg hn]
    rw [addFrom_succ, if_neg hs0, if_pos hlt, hsame]
    exact ih (i + 1) bf (Or.inr hs0) (fun t ht1 ht2 => hset t (by omega) (by omega))

theorem containsFrom_succ (bf : BloomFilter) (item : List UInt8) (k i : Nat) :
    BloomFilter.containsFrom bf item (k + 1) i =
      if bf.size = 0 then .error .divideByZero
      else match bf.bitset[bf.position item i]? with
        | none => .error .indexOutOfRange
        | some b => if !b then .ok false else BloomFilter.containsFrom bf item k (i + 1) := rfl

/-- The loop of `Contains` over rounds whose positions are all indices of the
bit array returns, and says whether all those bits are set. -/
theorem containsFrom_spec (bf : BloomFilter) (item : List UInt8) (hs : bf.size ≠ 0) :
    ∀ (k i : Nat), (∀ t, i ≤ t → t < i + k → bf.position item t < bf.bitset.length) →
      ∃ b, BloomFilter.containsFrom bf item k i = .ok b ∧
        (b = true ↔ ∀ t, i ≤ t → t < i + k → bf.bitset[bf.position item t]? = some true) := by
  intro k
  induction k with
  | zero =>
    intro i _
    exact ⟨true, rfl, fun _ t h1 h2 => by omega, fun _ => rfl⟩
  | succ k ih =>
    intro i hin
    have hlt := hin i (le_refl _) (by omega)
    rw [containsFrom_succ, if_neg hs, List.getElem?_eq_getElem hlt]
    cases hb : bf.bitset[bf.position item i] with
    | false =>
      refine ⟨false, by simp, ?_⟩
      constructor
      · intro h; cases h
      · intro h
        have := h i (le_refl _) (by omega)
        rw [List.getElem?_eq_getElem hlt, hb] at this
        cases this
    | true =>
      obtain ⟨b, hb1, hb2⟩ := ih (i + 1) (fun t ht1 ht2 => hin t (by omega) (by omega))
      refine ⟨b, by simpa using hb1, ?_⟩
      rw [hb2]
      constructor
      · intro h t ht1 ht2
        by_cases hti : t = i
        · subst hti
          rw [List.getElem?_eq_getElem hlt, hb]
        · exact h t (by omega) (by omega)
      · intro h t ht1 ht2
        exact h t (by omega) (by omega)

/-- A completed `Add` keeps `size`, `hashCount` and the length of the bit
array, and never turns a set bit off. -/
theorem Add_ok_frame (bf bf' : BloomFilter) (item : List UInt8) (h : bf.Add item = .ok bf') :
    bf'.size = bf.size ∧ bf'.hashCount = bf.hashCount ∧
      bf'.bitset.length = bf.bitset.length ∧
      ∀ j : Nat, bf.bitset[j]? = some true → bf'.bitset[j]? = some true := by
  obtain ⟨h1, h2, h3, -, h5, h6, h7⟩ := addFrom_ok item bf.hashCount 0 bf bf' h
  refine ⟨h1, h2, h3, ?_⟩
  intro j hj
  by_cases hex : ∃ t, 0 ≤ t ∧ t < 0 + bf.hashCount ∧ bf.position item t = j
  · obtain ⟨t, ht1, ht2, ht3⟩ := hex
    rw [← ht3]
    exact h6 t ht1 ht2
  · rw [h7 j (fun t ht1 ht2 ht3 => hex ⟨t, ht1, ht2, ht3⟩)]
    exact hj

/-- On a filter whose bit array has the declared, non-zero size, `Add` returns. -/
theorem Add_total (bf : BloomFilter) (item : List UInt8) (hs : 1 ≤ bf.size)
    (hl : bf.bitset.length = bf.size) : ∃ bf', bf.Add item = .ok bf' := by
  apply addFrom_total item bf.hashCount 0 bf (by omega)
  intro t _ _
  rw [hl]
  exact position_lt bf item t hs

/-- A completed sequence of `Add` calls keeps `size`, `hashCount` and the
length of the bit array, and never turns a set bit off. -/
theorem addAll_ok_frame (items : List (List UInt8)) :
    ∀ (bf bf' : BloomFilter), bf.addAll items = .ok bf' →
      bf'.size = bf.size ∧ bf'.hashCount = bf.hashCount ∧
        bf'.bitset.length = bf.bitset.length ∧
        ∀ j : Nat, bf.bitset[j]? = some true → bf'.bitset[j]? = some true := by
  induction items with
  | nil =>
    intro bf bf' h
    simp only [BloomFilter.addAll, Except.ok.injEq] at h
    subst h
    exact ⟨rfl, rfl, rfl, fun _ hj => hj⟩
  | cons item rest ih =>
    intro bf bf' h
    unfold BloomFilter.addAll at h
    cases hadd : bf.Add item with
    | error e => rw [hadd] at h; cases h
    | ok bf1 =>
      rw [hadd] at h
      obtain ⟨a1, a2, a3, a4⟩ := Add_ok_frame bf bf1 item hadd
      obtain ⟨b1, b2, b3, b4⟩ := ih bf1 bf' h
      exact ⟨b1.trans a1, b2.trans a2, b3.trans a3, fun j hj => b4 j (a4 j hj)⟩

/-- On a filter whose bit array has the declared, non-zero size, every
sequence of `Add` calls returns. -/
theorem addAll_total (items : List (List UInt8)) :
    ∀ (bf : BloomFilter), 1 ≤ bf.size → bf.bitset.length = bf.size →
      ∃ bf', bf.addAll items = .ok bf' := by
  induction items with
  | nil => intro bf _ _; exact ⟨bf, rfl⟩
  | cons item rest ih =>
    intro bf hs hl
    obtain ⟨bf1, hadd⟩ := Add_total bf item hs hl
    obtain ⟨a1, -, a3, -⟩ := Add_ok_frame bf bf1 item hadd
    obtain ⟨bf2, h2⟩ := ih bf1 (by omega) (by omega)
    refine ⟨bf2, ?_⟩
    unfold BloomFilter.addAll
    rw [hadd]
    exact h2

theorem Contains_eq (bf : BloomFilter) (item : List UInt8) (b : Bool)
    (h : BloomFilter.containsFrom bf item bf.hashCount 0 = .ok b) :
    bf.Contains item = .ok (b, bf) := by
  simp [BloomFilter.Contains, h, Except.map]

/-! ## Membership -/

/-- C1: no false negatives. On a filter with `size >= 1` whose bit array has
`size` bits, `Add(x)` returns, every further sequence of `Add` calls returns,
and `Contains(x)` on the resulting filter answers true. -/
theorem no_false_negatives (bf : BloomFilter) (x : List UInt8) (ys : List (List UInt8))
    (hs : 1 ≤ bf.size) (hl : bf.bitset.length = bf.size) :
    ∃ bf1 bf2, bf.Add x = .ok bf1 ∧ bf1.addAll ys = .ok bf2 ∧
      bf2.Contains x = .ok (true, bf2) := by
  obtain ⟨bf1, h1⟩ := Add_total bf x hs hl
  obtain ⟨a1, a2, a3, -, -, a6, -⟩ := addFrom_ok x bf.hashCount 0 bf bf1 h1
  obtain ⟨bf2, h2⟩ := addAll_total ys bf1 (by omega) (by omega)
  obtain ⟨b1, b2, b3, b4⟩ := addAll_ok_frame ys bf1 bf2 h2
  refine ⟨bf1, bf2, h1, h2, ?_⟩
  have hset : ∀ t, 0 ≤ t → t < 0 + bf2.hashCount →
      bf2.bitset[bf2.position x t]? = some true := by
    intro t ht1 ht2
    rw [position_congr bf bf2 x t (b1.trans a1)]
    exact b4 _ (a6 t ht1 (by omega))
  have hin : ∀ t, 0 ≤ t → t < 0 + bf2.hashCount →
      bf2.position x t < bf2.bitset.length := by
    intro t ht1 ht2
    exact (List.getElem?_eq_some.mp (hset t ht1 ht2)).1
  obtain ⟨b, c1, c2⟩ := containsFrom_spec bf2 x (by omega) bf2.hashCount 0 hin
  have hb : b = true := c2.mpr hset
  subst hb
  exact Contains_eq bf2 x true c1

/-- The scenario of `TestCustomBloomFilter` up to `Clear`, on the filter of
95851 bits and 7 rounds that `NewWithEstimates(10000, 0.01)` builds. -/
theorem no_false_negatives_witness :
    1 ≤ (NewC 95851 7).size ∧ (NewC 95851 7).bitset.length = (NewC 95851 7).size ∧
      ∃ bf1 bf2, (NewC 95851 7).Add apple = .ok bf1 ∧ bf1.addAll [banana, cherry] = .ok bf2 ∧
        bf2.Contains apple = .ok (true, bf2) :=
  ⟨by decide, List.length_replicate ..,
    no_false_negatives (NewC 95851 7) apple [banana, cherry] (by decide)
      (List.length_replicate ..)⟩

/-- C2: `Clear` resets membership. Starting from a filter with `size >= 1`
and `hashCount >= 1`, after any completed sequence of `Add` calls followed by
`Clear`, `Contains(x)` answers false for every `x`. -/
theorem clear_resets_membership (bf bf' : BloomFilter) (items : List (List UInt8))
    (x : List UInt8) (hs : 1 ≤ bf.size) (hk : 1 ≤ bf.hashCount)
    (h : bf.addAll items = .ok bf') :
    bf'.Clear.Contains x = .ok (false, bf'.Clear) := by
  obtain ⟨b1, b2, -, -⟩ := addAll_ok_frame items bf bf' h
  apply Contains_eq
  have hk' : bf'.Clear.hashCount = (bf.hashCount - 1) + 1 := by
    show bf'.hashCount = _
    omega
  have hs' : bf'.Clear.size ≠ 0 := by
    show bf'.size ≠ 0
    omega
  have hp : bf'.Clear.position x 0 < bf'.size :=
    position_lt bf'.Clear x 0 (by show 1 ≤ bf'.size; omega)
  have hbit : bf'.Clear.bitset[bf'.Clear.position x 0]? = some false := by
    show (List.replicate bf'.size false)[bf'.Clear.position x 0]? = some false
    rw [List.getElem?_replicate, if_pos hp]
  rw [hk', containsFrom_succ, if_neg hs', hbit]
  rfl

/-- A filter of 20 bits and 3 rounds: the three keys of the test are added,
the filter is cleared, and `"apple"` is reported absent. -/
theorem clear_resets_membership_witness :
    (NewC 20 3).addAll [apple, banana, cherry] = .ok
        ⟨[false, false, false, false, true, false, true, true, false, true, false, false,
          false, false, false, true, true, false, true, false], 20, 3⟩ ∧
      (BloomFilter.Clear ⟨[false, false, false, false, true, false, true, true, false, true,
          false, false, false, false, false, true, true, false, true, false], 20, 3⟩).Contains
        apple = .ok (false, NewC 20 3) :=
  ⟨rfl, clear_resets_membership (NewC 20 3) _ [apple, banana, cherry] apple
    (by decide) (by decide) rfl⟩

/-- C3: characterisation of `Contains`. On a filter with `size >= 1` whose bit
array has `size` bits, `Contains(x)` returns, leaves the filter as it was,
answers true exactly when the bit at `hash(x, i) mod size` is set for every
`i < hashCount`, and answers false exactly when one of those bits is clear. -/
theorem contains_characterisation (bf : BloomFilter) (x : List UInt8)
    (hs : 1 ≤ bf.size) (hl : bf.bitset.length = bf.size) :
    ∃ b, bf.Contains x = .ok (b, bf) ∧
      (b = true ↔ ∀ i, i < bf.hashCount → bf.bitset[bf.hash x i % bf.size]? = some true) ∧
      (b = false ↔ ∃ i, i < bf.hashCount ∧ bf.bitset[bf.hash x i % bf.size]? = some false) := by
  have hin : ∀ t, bf.position x t < bf.bitset.length := by
    intro t
    rw [hl]
    exact position_lt bf x t hs
  obtain ⟨b, c1, c2⟩ := containsFrom_spec bf x (by omega) bf.hashCount 0 (fun t _ _ => hin t)
  have hall : b = true ↔
      ∀ i, i < bf.hashCount → bf.bitset[bf.hash x i % bf.size]? = some true := by
    rw [c2]
    constructor
    · intro h i hi
      exact h i (Nat.zero_le _) (by omega)
    · intro h t _ ht
      exact h t (by omega)
  refine ⟨b, Contains_eq bf x b c1, hall, ?_⟩
  constructor
  · intro hb
    by_contra hno
    have : b = true := by
      rw [hall]
      intro i hi
      have hlt := hin i
      show bf.bitset[bf.position x i]? = some true
      rw [List.getElem?_eq_getElem hlt]
      cases hv : bf.bitset[bf.position x i] with
      | true => rfl
      | false =>
        exfalso
        apply hno
        refine ⟨i, hi, ?_⟩
        show bf.bitset[bf.position x i]? = some false
        rw [List.getElem?_eq_getElem hlt, hv]
    rw [hb] at this
    cases this
  · rintro ⟨i, hi, hv⟩
    cases hb : b with
    | false => rfl
    | true =>
      have := hall.mp hb i hi
      rw [hv] at this
      cases this

/-- On the filter of 8 bits and 2 rounds that holds `"apple"`, `Contains`
answers as the bits at the two positions of the queried key say. -/
theorem contains_characterisation_witness :
    1 ≤ (BloomFilter.mk [false, false, true, false, false, true, false, false] 8 2).size ∧
      ∃ b, (BloomFilter.mk [false, false, true, false, false, true, false, false] 8 2).Contains
          banana
          = .ok (b, BloomFilter.mk [false, false, true, false, false, true, false, false] 8 2) ∧
        (b = true ↔ ∀ i, i < 2 →
          [false, false, true, false, false, true, false, false][
            (BloomFilter.mk [false, false, true, false, false, true, false, false] 8 2).hash
              banana i % 8]? = some true) ∧
        (b = false ↔ ∃ i, i < 2 ∧
          [false, false, true, false, false, true, false, false][
            (BloomFilter.mk [false, false, true, false, false, true, false, false] 8 2).hash
              banana i % 8]? = some false) :=
  ⟨by decide, contains_characterisation
    (BloomFilter.mk [false, false, true, false, false, true, false, false] 8 2) banana
    (by decide) rfl⟩

/-! ## Effect of `Add` and `Clear` -/

/-- C4: postcondition and frame of `Add`. On a filter with `size >= 1` whose
bit array has `size` bits, `Add(x)` returns; afterwards bit `j` is set exactly
when it was set before or `j = hash(x, i) mod size` for some `i < hashCount`;
every other bit, `size`, `hashCount` and the length of the array are unchanged. -/
theorem add_postcondition (bf : BloomFilter) (x : List UInt8)
    (hs : 1 ≤ bf.size) (hl : bf.bitset.length = bf.size) :
    ∃ bf', bf.Add x = .ok bf' ∧ bf'.size = bf.size ∧ bf'.hashCount = bf.hashCount ∧
      bf'.bitset.length = bf.bitset.length ∧
      (∀ j : Nat, bf'.bitset[j]? = some true ↔
        (bf.bitset[j]? = some true ∨ ∃ i, i < bf.hashCount ∧ j = bf.hash x i % bf.size)) ∧
      (∀ j : Nat, (∀ i, i < bf.hashCount → j ≠ bf.hash x i % bf.size) →
        bf'.bitset[j]? = bf.bitset[j]?) := by
  obtain ⟨bf', h⟩ := Add_total bf x hs hl
  obtain ⟨a1, a2, a3, -, -, a6, a7⟩ := addFrom_ok x bf.hashCount 0 bf bf' h
  have hframe : ∀ j : Nat, (∀ i, i < bf.hashCount → j ≠ bf.hash x i % bf.size) →
      bf'.bitset[j]? = bf.bitset[j]? := by
    intro j hj
    apply a7 j
    intro t _ ht heq
    exact hj t (by omega) heq.symm
  refine ⟨bf', h, a1, a2, a3, ?_, hframe⟩
  intro j
  by_cases hex : ∃ i, i < bf.hashCount ∧ j = bf.hash x i % bf.size
  · obtain ⟨i, hi, hj⟩ := hex
    constructor
    · intro _
      exact Or.inr ⟨i, hi, hj⟩
    · intro _
      rw [hj]
      exact a6 i (Nat.zero_le _) (by omega)
  · have hne : ∀ i, i < bf.hashCount → j ≠ bf.hash x i % bf.size :=
      fun i hi heq => hex ⟨i, hi, heq⟩
    rw [hframe j hne]
    constructor
    · intro h0
      exact Or.inl h0
    · rintro (h0 | h0)
      · exact h0
      · exact absurd h0 hex

/-- Adding `"apple"` to the empty filter of 8 bits and 2 rounds. -/
theorem add_postcondition_witness :
    1 ≤ (NewC 8 2).size ∧ (NewC 8 2).bitset.length = (NewC 8 2).size ∧
      (NewC 8 2).Add apple
        = .ok ⟨[false, false, true, false, false, true, false, false], 8, 2⟩ ∧
      ∃ bf', (NewC 8 2).Add apple = .ok bf' ∧ bf'.size = 8 ∧ bf'.hashCount = 2 ∧
        bf'.bitset.length = 8 ∧
        (∀ j : Nat, bf'.bitset[j]? = some true ↔
          ((NewC 8 2).bitset[j]? = some true ∨
            ∃ i, i < 2 ∧ j = (NewC 8 2).hash apple i % 8)) ∧
        (∀ j : Nat, (∀ i, i < 2 → j ≠ (NewC 8 2).hash apple i % 8) →
          bf'.bitset[j]? = (NewC 8 2).bitset[j]?) :=
  ⟨by decide, rfl, rfl, add_postcondition (NewC 8 2) apple (by decide) rfl⟩

/-- C5: `Add` is idempotent. On a filter with `size >= 1`, running `Add(x)`
twice ends exactly as running it once (the same state, or the same panic); and
when the bit array has `size` bits the first call returns a state that the
second call returns unchanged. -/
theorem add_idempotent (bf : BloomFilter) (x : List UInt8) (hs : 1 ≤ bf.size) :
    ((bf.Add x).bind fun bf1 => bf1.Add x) = bf.Add x ∧
      (bf.bitset.length = bf.size →
        ∃ bf1, bf.Add x = .ok bf1 ∧ bf1.Add x = .ok bf1) := by
  have again : ∀ bf1, bf.Add x = .ok bf1 → bf1.Add x = .ok bf1 := by
    intro bf1 h
    obtain ⟨a1, a2, -, a4, -, a6, -⟩ := addFrom_ok x bf.hashCount 0 bf bf1 h
    apply addFrom_noop x bf1.hashCount 0 bf1 (Or.inr (by omega))
    intro t ht1 ht2
    rw [position_congr bf bf1 x t a1]
    exact a6 t ht1 (by omega)
  constructor
  · cases h : bf.Add x with
    | error e => rfl
    | ok bf1 => exact again bf1 h
  · intro hl
    obtain ⟨bf1, h⟩ := Add_total bf x hs hl
    exact ⟨bf1, h, again bf1 h⟩

/-- Adding `"banana"` twice to the empty filter of 8 bits and 2 rounds. -/
theorem add_idempotent_witness :
    1 ≤ (NewC 8 2).size ∧
      (((NewC 8 2).Add banana).bind fun bf1 => bf1.Add banana) = (NewC 8 2).Add banana ∧
      ((NewC 8 2).bitset.length = (NewC 8 2).size →
        ∃ bf1, (NewC 8 2).Add banana = .ok bf1 ∧ bf1.Add banana = .ok bf1) :=
  ⟨by decide, add_idempotent (NewC 8 2) banana (by decide)⟩

/-- C6: the result of `Clear`. The bit array then has `size` entries, all of
them false; `size` and `hashCount` are those of the filter before; the cleared
filter is `NewC(size, hashCount)`. -/
theorem clear_result (bf : BloomFilter) :
    bf.Clear.bitset.length = bf.size ∧
      (∀ j : Nat, j < bf.size → bf.Clear.bitset[j]? = some false) ∧
      (∀ b, b ∈ bf.Clear.bitset → b = false) ∧
      bf.Clear.size = bf.size ∧ bf.Clear.hashCount = bf.hashCount ∧
      bf.Clear = NewC bf.size bf.hashCount := by
  refine ⟨List.length_replicate .., ?_, ?_, rfl, rfl, rfl⟩
  · intro j hj
    show (List.replicate bf.size false)[j]? = some false
    rw [List.getElem?_replicate, if_pos hj]
  · intro b hb
    exact List.eq_of_mem_replicate hb

/-! ## Invariants -/

theorem ratOps_laws :
    ZeroLaws ratOps (fun x => x = 0) (fun x => x ≠ 0) (fun x => 0 < x ∧ x < 1) where
  ofUint_zero := by simp [ratOps]
  neg_zero := by intro x hx; simp [ratOps, hx]
  mul_zero := by intro x y hx _; simp [ratOps, hx]
  div_zero := by intro x y hx _; simp [ratOps, hx]
  ceil_zero := by intro x hx; simp [ratOps, hx]
  toUint_zero := by intro x hx; simp [ratOps, hx]
  log_unit := by
    intro p hp
    show p - 1 ≠ 0
    intro h
    have : p = 1 := by linarith
    rw [this] at hp
    exact absurd hp.2 (lt_irrefl _)
  pow_log_two := by
    show ((2 : ℕ) - 1 : ℚ) ^ ⌊((2 : ℕ) : ℚ)⌋.toNat ≠ 0
    norm_num

theorem calculateOptimalSize_zero {F : Type} (ops : Float64Ops F)
    (isZero isRegular inUnit : F → Prop) (laws : ZeroLaws ops isZero isRegular inUnit)
    (p : F) (hp : inUnit p) : calculateOptimalSize ops 0 p = 0 := by
  unfold calculateOptimalSize
  apply laws.toUint_zero
  apply laws.ceil_zero
  apply laws.div_zero _ _ _ laws.pow_log_two
  apply laws.mul_zero _ _ _ (laws.log_unit p hp)
  exact laws.neg_zero _ laws.ofUint_zero

/-- The bounds that the estimates give on `n >= 1`, `0 < p < 1` when the size
estimate is below `2^64`. -/
theorem estimates_ge_one {F : Type} (ops : Float64Ops F)
    (inUnit geOne leNegOne isNeg isPos fitsUint nonNeg below : F → Prop)
    (laws : EstimateLaws ops inUnit geOne leNegOne isNeg isPos fitsUint nonNeg below)
    (n : Nat) (p : F) (hn1 : 1 ≤ n) (hn : n < 2 ^ 64) (hp : inUnit p)
    (hfit : fitsUint (optimalSizeFloat ops n p)) :
    1 ≤ calculateOptimalSize ops n p ∧
      1 ≤ calculateOptimalHashCount ops (calculateOptimalSize ops n p) n := by
  have hcount : geOne (ops.ofUint n) := laws.ofUint_geOne n hn1 hn
  have hceil : geOne (optimalSizeFloat ops n p) := by
    unfold optimalSizeFloat
    apply laws.ceil_pos
    apply laws.div_pow_log_two
    exact laws.mul_neg _ _ (laws.neg_geOne _ hcount) (laws.log_unit p hp)
  have hsize : 1 ≤ calculateOptimalSize ops n p ∧ calculateOptimalSize ops n p < 2 ^ 64 :=
    laws.toUint_geOne _ hceil hfit
  refine ⟨hsize.1, ?_⟩
  unfold calculateOptimalHashCount
  have hmax := laws.max_one _ (laws.round_below _ (laws.mul_log_two _
    (laws.div_geOne _ _ (laws.ofUint_nonNeg _ hsize.2) hcount)))
  exact (laws.toUint_geOne _ hmax.1 hmax.2).1

theorem ratOps_estimateLaws :
    EstimateLaws ratOps (fun x => 0 < x ∧ x < 1) (fun x => 1 ≤ x) (fun x => x ≤ -1)
      (fun x => x < 0) (fun x => 0 < x) (fun x => x < 2 ^ 64)
      (fun x => 0 ≤ x ∧ x ≤ 2 ^ 64 - 1) (fun x => 0 ≤ x ∧ x ≤ 2 ^ 64 - 1) where
  ofUint_geOne := by
    intro n h1 _
    show (1 : ℚ) ≤ (n : ℚ)
    exact_mod_cast h1
  ofUint_nonNeg := by
    intro m hm
    show (0 : ℚ) ≤ (m : ℚ) ∧ (m : ℚ) ≤ 2 ^ 64 - 1
    have h1 : (m : ℚ) + 1 ≤ 2 ^ 64 := by exact_mod_cast hm
    exact ⟨Nat.cast_nonneg m, by linarith⟩
  neg_geOne := by
    intro x hx
    show -x ≤ -1
    linarith
  log_unit := by
    intro p hp
    show p - 1 < 0
    linarith [hp.2]
  mul_neg := by
    intro x y hx hy
    show 0 < x * y
    exact mul_pos_of_neg_of_neg (by linarith) hy
  div_pow_log_two := by
    intro x hx
    show 0 < x / (((2 : ℕ) : ℚ) - 1) ^ ⌊((2 : ℕ) : ℚ)⌋.toNat
    norm_num
    exact hx
  ceil_pos := by
    intro x hx
    show (1 : ℚ) ≤ (⌈x⌉ : ℚ)
    have : (1 : ℤ) ≤ ⌈x⌉ := Int.ceil_pos.mpr hx
    exact_mod_cast this
  toUint_geOne := by
    intro x h1 h2
    show 1 ≤ ⌊x⌋.toNat ∧ ⌊x⌋.toNat < 2 ^ 64
    have hlo : (1 : ℤ) ≤ ⌊x⌋ := Int.le_floor.mpr (by exact_mod_cast h1)
    have hhi : ⌊x⌋ < (2 ^ 64 : ℤ) := Int.floor_lt.mpr (by exact_mod_cast h2)
    omega
  div_geOne := by
    intro x y hx hy
    show 0 ≤ x / y ∧ x / y ≤ 2 ^ 64 - 1
    have hy0 : (0 : ℚ) < y := by linarith
    exact ⟨div_nonneg hx.1 hy0.le, le_trans (div_le_self hx.1 hy) hx.2⟩
  mul_log_two := by
    intro x hx
    show 0 ≤ x * (((2 : ℕ) : ℚ) - 1) ∧ x * (((2 : ℕ) : ℚ) - 1) ≤ 2 ^ 64 - 1
    have hone : x * (((2 : ℕ) : ℚ) - 1) = x := by norm_num
    rw [hone]
    exact hx
  round_below := by
    intro x hx
    show (0 : ℚ) ≤ ((round x : ℤ) : ℚ) ∧ ((round x : ℤ) : ℚ) ≤ 2 ^ 64 - 1
    rw [round_eq]
    have hlo : (0 : ℤ) ≤ ⌊x + 1 / 2⌋ := Int.le_floor.mpr (by push_cast; linarith [hx.1])
    have hhi : ⌊x + 1 / 2⌋ < (2 ^ 64 : ℤ) :=
      Int.floor_lt.mpr (by push_cast; linarith [hx.2])
    have hhi' : ⌊x + 1 / 2⌋ + 1 ≤ (2 ^ 64 : ℤ) := by omega
    have hq : ((⌊x + 1 / 2⌋ : ℤ) : ℚ) + 1 ≤ 2 ^ 64 := by exact_mod_cast hhi'
    exact ⟨by exact_mod_cast hlo, by linarith⟩
  max_one := by
    intro x hx
    show (1 : ℚ) ≤ max ((1 : ℕ) : ℚ) x ∧ max ((1 : ℕ) : ℚ) x < 2 ^ 64
    refine ⟨by simp, max_lt (by norm_num) ?_⟩
    linarith [hx.2]

/-- C7, as stated, fails: `NewC(0, 0)` is returned with `size = 0` and
`hashCount = 0`; and `NewWithEstimates(0, p)` is returned with `size = 0`
for every `0 < p < 1` (under the float64 facts `ZeroLaws`). -/
theorem parameter_invariant_counterexample :
    ¬ (1 ≤ (NewC 0 0).size ∧ 1 ≤ (NewC 0 0).hashCount) ∧
      (∀ (F : Type) (ops : Float64Ops F) (isZero isRegular inUnit : F → Prop),
        ZeroLaws ops isZero isRegular inUnit → ∀ p, inUnit p →
          ¬ (1 ≤ (NewWithEstimates ops 0 p).size ∧ 1 ≤ (NewWithEstimates ops 0 p).hashCount)) ∧
      ¬ (1 ≤ (NewWithEstimates ratOps 0 (1 / 2)).size ∧
        1 ≤ (NewWithEstimates ratOps 0 (1 / 2)).hashCount) := by
  have hz : ∀ (F : Type) (ops : Float64Ops F) (isZero isRegular inUnit : F → Prop),
      ZeroLaws ops isZero isRegular inUnit → ∀ p, inUnit p →
        ¬ (1 ≤ (NewWithEstimates ops 0 p).size ∧ 1 ≤ (NewWithEstimates ops 0 p).hashCount) := by
    intro F ops isZero isRegular inUnit laws p hp hinv
    have h0 : (NewWithEstimates ops 0 p).size = 0 :=
      calculateOptimalSize_zero ops isZero isRegular inUnit laws p hp
    omega
  exact ⟨by decide, hz, hz ℚ ratOps _ _ _ ratOps_laws (1 / 2) (by norm_num)⟩

/-- C7, amended: the bounds `size >= 1` and `hashCount >= 1` hold on the
constructors' proper inputs. `NewC(size, hashCount)` stores its arguments
unchecked and satisfies the bounds exactly when the arguments do;
`NewWithEstimates(n, p)` with `n >= 1`, `0 < p < 1` and a size estimate below
`2^64` satisfies them (`math.Ceil` of a positive value, `math.Max(1, ..)`;
under the float64 facts `EstimateLaws`); a completed `Add` and `Clear` leave
`size` and `hashCount` unchanged, so they preserve the bounds. -/
theorem parameter_invariant_amended {F : Type} (ops : Float64Ops F)
    (inUnit geOne leNegOne isNeg isPos fitsUint nonNeg below : F → Prop)
    (laws : EstimateLaws ops inUnit geOne leNegOne isNeg isPos fitsUint nonNeg below)
    (n : Nat) (p : F) (size hashCount : Nat) (bf bf' : BloomFilter) (x : List UInt8)
    (hn1 : 1 ≤ n) (hn : n < 2 ^ 64) (hp : inUnit p)
    (hfit : fitsUint (optimalSizeFloat ops n p))
    (h : bf.Add x = .ok bf') :
    ((1 ≤ (NewC size hashCount).size ∧ 1 ≤ (NewC size hashCount).hashCount) ↔
        (1 ≤ size ∧ 1 ≤ hashCount)) ∧
      (1 ≤ (NewWithEstimates ops n p).size ∧ 1 ≤ (NewWithEstimates ops n p).hashCount) ∧
      (bf'.size = bf.size ∧ bf'.hashCount = bf.hashCount) ∧
      (bf.Clear.size = bf.size ∧ bf.Clear.hashCount = bf.hashCount) ∧
      ((1 ≤ bf.size ∧ 1 ≤ bf.hashCount) →
        (1 ≤ bf'.size ∧ 1 ≤ bf'.hashCount) ∧ (1 ≤ bf.Clear.size ∧ 1 ≤ bf.Clear.hashCount)) := by
  obtain ⟨a1, a2, -, -⟩ := Add_ok_frame bf bf' x h
  refine ⟨Iff.rfl, ?_, ⟨a1, a2⟩, ⟨rfl, rfl⟩, ?_⟩
  · exact estimates_ge_one ops inUnit geOne leNegOne isNeg isPos fitsUint nonNeg below laws
      n p hn1 hn hp hfit
  · rintro ⟨h1, h2⟩
    refine ⟨⟨by omega, by omega⟩, ⟨h1, h2⟩⟩

/-- The filter of 8 bits and 2 rounds before and after `Add("cherry")`, next
to the estimate for `n = 10`, `p = 1/2` on exact rational arithmetic. -/
theorem parameter_invariant_amended_witness :
    (NewC 8 2).Add cherry = .ok ⟨[true, false, false, true, false, false, false, false], 8, 2⟩ ∧
      ((0 : ℚ) < 1 / 2 ∧ (1 / 2 : ℚ) < 1) ∧
      optimalSizeFloat ratOps 10 (1 / 2) < 2 ^ 64 ∧
      ((1 ≤ (NewC 8 2).size ∧ 1 ≤ (NewC 8 2).hashCount) ↔ (1 ≤ 8 ∧ 1 ≤ 2)) ∧
      (1 ≤ (NewWithEstimates ratOps 10 (1 / 2)).size ∧
        1 ≤ (NewWithEstimates ratOps 10 (1 / 2)).hashCount) ∧
      ((BloomFilter.mk [true, false, false, true, false, false, false, false] 8 2).size
          = (NewC 8 2).size ∧
        (BloomFilter.mk [true, false, false, true, false, false, false, false] 8 2).hashCount
          = (NewC 8 2).hashCount) ∧
      ((NewC 8 2).Clear.size = (NewC 8 2).size ∧
        (NewC 8 2).Clear.hashCount = (NewC 8 2).hashCount) ∧
      ((1 ≤ (NewC 8 2).size ∧ 1 ≤ (NewC 8 2).hashCount) →
        (1 ≤ (BloomFilter.mk [true, false, false, true, false, false, false, false] 8 2).size ∧
          1 ≤ (BloomFilter.mk [true, false, false, true, false, false, false, false]
            8 2).hashCount) ∧
        (1 ≤ (NewC 8 2).Clear.size ∧ 1 ≤ (NewC 8 2).Clear.hashCount)) :=
  have hfit : optimalSizeFloat ratOps 10 (1 / 2) < 2 ^ 64 := by
    show ((⌈(-((10 : ℕ) : ℚ) * ((1 / 2 : ℚ) - 1))
      / (((2 : ℕ) : ℚ) - 1) ^ ⌊((2 : ℕ) : ℚ)⌋.toNat⌉ : ℤ) : ℚ) < 2 ^ 64
    norm_num
  ⟨rfl, by norm_num, hfit,
    parameter_invariant_amended ratOps _ _ _ _ _ _ _ _ ratOps_estimateLaws 10 (1 / 2) 8 2
      (NewC 8 2) _ cherry (by norm_num) (by norm_num) (by norm_num) hfit rfl⟩

/-- C8: the length invariant `len(bitset) = size`. It holds for the filters
that `NewC` and `NewWithEstimates` return; a completed `Add` on a filter that
satisfies it returns one that satisfies it, with a bit array of the same
length; `Clear` establishes it, and on a filter that satisfies it leaves the
length of the bit array as it was. -/
theorem length_invariant {F : Type} (ops : Float64Ops F) (n : Nat) (p : F)
    (size hashCount : Nat) (bf bf' : BloomFilter) (x : List UInt8)
    (hl : bf.bitset.length = bf.size) (h : bf.Add x = .ok bf') :
    (NewC size hashCount).bitset.length = (NewC size hashCount).size ∧
      (NewWithEstimates ops n p).bitset.length = (NewWithEstimates ops n p).size ∧
      (bf'.bitset.length = bf'.size ∧ bf'.bitset.length = bf.bitset.length) ∧
      (bf.Clear.bitset.length = bf.Clear.size ∧
        bf.Clear.bitset.length = bf.bitset.length) := by
  obtain ⟨a1, -, a3, -⟩ := Add_ok_frame bf bf' x h
  refine ⟨List.length_replicate .., List.length_replicate .., ⟨by omega, a3⟩, ?_⟩
  have hc : bf.Clear.bitset.length = bf.size := List.length_replicate ..
  exact ⟨hc, by omega⟩

/-- The filter of 8 bits and 2 rounds that holds `"apple"`, before and after
`Add("banana")`. -/
theorem length_invariant_witness :
    (BloomFilter.mk [false, false, true, false, false, true, false, false] 8 2).bitset.length
        = 8 ∧
      (BloomFilter.mk [false, false, true, false, false, true, false, false] 8 2).Add banana
        = .ok ⟨[true, false, true, true, false, true, false, false], 8, 2⟩ ∧
      (NewC 95851 7).bitset.length = (NewC 95851 7).size ∧
      (NewWithEstimates leanFloatOps 10000 0.01).bitset.length
        = (NewWithEstimates leanFloatOps 10000 0.01).size ∧
      ((BloomFilter.mk [true, false, true, true, false, true, false, false] 8 2).bitset.length
          = (BloomFilter.mk [true, false, true, true, false, true, false, false] 8 2).size ∧
        (BloomFilter.mk [true, false, true, true, false, true, false, false] 8 2).bitset.length
          = (BloomFilter.mk [false, false, true, false, false, true, false, false]
              8 2).bitset.length) ∧
      ((BloomFilter.mk [false, false, true, false, false, true, false, false]
            8 2).Clear.bitset.length
          = (BloomFilter.mk [false, false, true, false, false, true, false, false]
              8 2).Clear.size ∧
        (BloomFilter.mk [false, false, true, false, false, true, false, false]
            8 2).Clear.bitset.length
          = (BloomFilter.mk [false, false, true, false, false, true, false, false]
              8 2).bitset.length) :=
  ⟨rfl, rfl, length_invariant leanFloatOps 10000 0.01 95851 7
    (BloomFilter.mk [false, false, true, false, false, true, false, false] 8 2) _ banana
    rfl rfl⟩

/-! ## Totality -/

/-- C9: `Add`, `Contains` and `Clear` are total on well-formed filters. On a
filter with `size >= 1` whose bit array has `size` bits, whatever `hashCount`
and the item are, every position `hash(item, i) mod size` is an index of the
bit array, `Add` and `Contains` return without a panic, and `Clear`, whose body
neither divides nor indexes, returns a filter that is well formed again. -/
theorem operations_total (bf : BloomFilter) (item : List UInt8)
    (hs : 1 ≤ bf.size) (hl : bf.bitset.length = bf.size) :
    (∀ i, bf.hash item i % bf.size < bf.bitset.length) ∧
      (∃ bf', bf.Add item = .ok bf') ∧
      (∃ b, bf.Contains item = .ok (b, bf)) ∧
      (∃ bf', bf.Clear = bf' ∧ 1 ≤ bf'.size ∧ bf'.bitset.length = bf'.size) := by
  have hin : ∀ t, bf.position item t < bf.bitset.length := by
    intro t
    rw [hl]
    exact position_lt bf item t hs
  refine ⟨hin, Add_total bf item hs hl, ?_, ⟨bf.Clear, rfl, hs, List.length_replicate ..⟩⟩
  obtain ⟨b, c1, -⟩ :=
    containsFrom_spec bf item (by omega) bf.hashCount 0 (fun t _ _ => hin t)
  exact ⟨b, Contains_eq bf item b c1⟩

/-- The three operations on a filter of 95851 bits with 300 rounds. -/
theorem operations_total_witness :
    1 ≤ (NewC 95851 300).size ∧ (NewC 95851 300).bitset.length = (NewC 95851 300).size ∧
      (∀ i, (NewC 95851 300).hash cherry i % (NewC 95851 300).size
        < (NewC 95851 300).bitset.length) ∧
      (∃ bf', (NewC 95851 300).Add cherry = .ok bf') ∧
      (∃ b, (NewC 95851 300).Contains cherry = .ok (b, NewC 95851 300)) ∧
      (∃ bf', (NewC 95851 300).Clear = bf' ∧ 1 ≤ bf'.size ∧ bf'.bitset.length = bf'.size) :=
  ⟨by decide, List.length_replicate .., operations_total (NewC 95851 300) cherry (by decide)
    (List.length_replicate ..)⟩

/-! ## Further lemmas on the loops -/

/-- The loop of `Contains` answers true exactly when it can divide and every
round finds its bit set. -/
theorem containsFrom_true_iff (bf : BloomFilter) (item : List UInt8) :
    ∀ (k i : Nat), BloomFilter.containsFrom bf item k i = .ok true ↔
      (k = 0 ∨ bf.size ≠ 0) ∧
        ∀ t, i ≤ t → t < i + k → bf.bitset[bf.position item t]? = some true := by
  intro k
  induction k with
  | zero =>
    intro i
    constructor
    · intro _
      exact ⟨Or.inl rfl, fun t h1 h2 => by omega⟩
    · intro _; rfl
  | succ k ih =>
    intro i
    rw [containsFrom_succ]
    by_cases hs : bf.size = 0
    · rw [if_pos hs]
      constructor
      · intro h; cases h
      · rintro ⟨h | h, -⟩
        · omega
        · exact absurd hs h
    · rw [if_neg hs]
      cases hb : bf.bitset[bf.position item i]? with
      | none =>
        constructor
        · intro h; cases h
        · rintro ⟨-, h⟩
          have := h i (le_refl _) (by omega)
          rw [hb] at this
          cases this
      | some b =>
        cases b with
        | false =>
          constructor
          · intro h; cases h
          · rintro ⟨-, h⟩
            have := h i (le_refl _) (by omega)
            rw [hb] at this
            cases this
        | true =>
          show BloomFilter.containsFrom bf item k (i + 1) = .ok true ↔ _
          rw [ih (i + 1)]
          constructor
          · rintro ⟨-, h⟩
            refine ⟨Or.inr hs, ?_⟩
            intro t ht1 ht2
            by_cases hti : t = i
            · subst hti; exact hb
            · exact h t (by omega) (by omega)
          · rintro ⟨-, h⟩
            exact ⟨Or.inr hs, fun t ht1 ht2 => h t (by omega) (by omega)⟩

theorem Contains_true_iff (bf : BloomFilter) (item : List UInt8) :
    bf.Contains item = .ok (true, bf) ↔
      BloomFilter.containsFrom bf item bf.hashCount 0 = .ok true := by
  unfold BloomFilter.Contains
  cases h : BloomFilter.containsFrom bf item bf.hashCount 0 with
  | error e => simp [Except.map]
  | ok b => simp [Except.map]

/-- With a size that is not zero, the only panic of the loop of `Add` is the
index out of range. -/
theorem addFrom_error_kind (item : List UInt8) :
    ∀ (k i : Nat) (bf : BloomFilter) (e : Panic), bf.size ≠ 0 →
      BloomFilter.addFrom item k i bf = .error e → e = .indexOutOfRange := by
  intro k
  induction k with
  | zero =>
    intro i bf e _ h
    cases h
  | succ k ih =>
    intro i bf e hs h
    rw [addFrom_succ, if_neg hs] at h
    by_cases hp : bf.position item i < bf.bitset.length
    · rw [if_pos hp] at h
      refine ih (i + 1) _ e ?_ h
      exact hs
    · rw [if_neg hp] at h
      cases h
      rfl

/-- The bits after a completed `Add`, one by one. -/
theorem Add_ok_bits (bf bf' : BloomFilter) (item : List UInt8) (h : bf.Add item = .ok bf')
    (j : Nat) :
    ((∃ t, t < bf.hashCount ∧ bf.position item t = j) → bf'.bitset[j]? = some true) ∧
      ((¬ ∃ t, t < bf.hashCount ∧ bf.position item t = j) → bf'.bitset[j]? = bf.bitset[j]?) := by
  obtain ⟨-, -, -, -, -, a6, a7⟩ := addFrom_ok item bf.hashCount 0 bf bf' h
  constructor
  · rintro ⟨t, ht, rfl⟩
    exact a6 t (Nat.zero_le _) (by omega)
  · intro hno
    apply a7 j
    intro t _ ht heq
    exact hno ⟨t, by omega, heq⟩

/-- `Add` on a filter with a size that is not zero: it returns when all its
positions are indices of the bit array, and panics on the index otherwise. -/
theorem Add_cases (bf : BloomFilter) (item : List UInt8) (hs : bf.size ≠ 0) :
    ((∀ t, t < bf.hashCount → bf.position item t < bf.bitset.length) ∧
        ∃ bf', bf.Add item = .ok bf') ∨
      ((¬ ∀ t, t < bf.hashCount → bf.position item t < bf.bitset.length) ∧
        bf.Add item = .error .indexOutOfRange) := by
  by_cases hin : ∀ t, t < bf.hashCount → bf.position item t < bf.bitset.length
  · left
    refine ⟨hin, addFrom_total item bf.hashCount 0 bf hs ?_⟩
    intro t _ ht
    exact hin t (by omega)
  · right
    refine ⟨hin, ?_⟩
    cases hr : bf.Add item with
    | error e =>
      rw [addFrom_error_kind item bf.hashCount 0 bf e hs hr]
    | ok bf' =>
      exfalso
      apply hin
      obtain ⟨-, -, -, -, a5, -, -⟩ := addFrom_ok item bf.hashCount 0 bf bf' hr
      intro t ht
      exact a5 t (Nat.zero_le _) (by omega)

/-- Two `Add` calls give the same result in either order: the same filter, or
the same panic. -/
theorem Add_bind_comm (bf : BloomFilter) (x y : List UInt8) :
    ((bf.Add x).bind fun b => b.Add y) = ((bf.Add y).bind fun b => b.Add x) := by
  by_cases hs : bf.size = 0
  · cases hk : bf.hashCount with
    | zero =>
      have hx : ∀ z, bf.Add z = .ok bf := by
        intro z
        unfold BloomFilter.Add
        rw [hk]
        rfl
      rw [hx x, hx y]
      show bf.Add y = bf.Add x
      rw [hx x, hx y]
    | succ k =>
      have hx : ∀ z, bf.Add z = .error .divideByZero := by
        intro z
        unfold BloomFilter.Add
        rw [hk, addFrom_succ, if_pos hs]
      rw [hx x, hx y]
      rfl
  · rcases Add_cases bf x hs with ⟨hinx, bx, hbx⟩ | ⟨hinx, hex⟩
    · obtain ⟨x1, x2, x3, -⟩ := Add_ok_frame bf bx x hbx
      rcases Add_cases bf y hs with ⟨hiny, by1, hby⟩ | ⟨hiny, hey⟩
      · obtain ⟨y1, y2, y3, -⟩ := Add_ok_frame bf by1 y hby
        rw [hbx, hby]
        show bx.Add y = by1.Add x
        rcases Add_cases bx y (by omega) with ⟨-, bxy, hbxy⟩ | ⟨hno, -⟩
        · rcases Add_cases by1 x (by omega) with ⟨-, byx, hbyx⟩ | ⟨hno, -⟩
          · rw [hbxy, hbyx]
            obtain ⟨xy1, xy2, -, -⟩ := Add_ok_frame bx bxy y hbxy
            obtain ⟨yx1, yx2, -, -⟩ := Add_ok_frame by1 byx x hbyx
            have hbits : bxy.bitset = byx.bitset := by
              apply List.ext_getElem?
              intro j
              have e1 := Add_ok_bits bf bx x hbx j
              have e2 := Add_ok_bits bf by1 y hby j
              have e3 := Add_ok_bits bx bxy y hbxy j
              have e4 := Add_ok_bits by1 byx x hbyx j
              simp only [position_congr bf bx y _ x1, position_congr bf by1 x _ y1, x2, y2]
                at e3 e4
              by_cases hy : ∃ t, t < bf.hashCount ∧ bf.position y t = j
              · rw [e3.1 hy]
                by_cases hx : ∃ t, t < bf.hashCount ∧ bf.position x t = j
                · rw [e4.1 hx]
                · rw [e4.2 hx, e2.1 hy]
              · rw [e3.2 hy]
                by_cases hx : ∃ t, t < bf.hashCount ∧ bf.position x t = j
                · rw [e4.1 hx, e1.1 hx]
                · rw [e4.2 hx, e1.2 hx, e2.2 hy]
            cases bxy
            cases byx
            simp only at hbits xy1 xy2 yx1 yx2
            simp only [Except.ok.injEq, BloomFilter.mk.injEq]
            exact ⟨hbits, by omega, by omega⟩
          · exfalso
            apply hno
            intro t ht
            rw [position_congr bf by1 x t y1, y3]
            exact hinx t (by omega)
        · exfalso
          apply hno
          intro t ht
          rw [position_congr bf bx y t x1, x3]
          exact hiny t (by omega)
      · rw [hbx, hey]
        show bx.Add y = .error .indexOutOfRange
        rcases Add_cases bx y (by omega) with ⟨hin, -⟩ | ⟨-, he⟩
        · exfalso
          apply hiny
          intro t ht
          have := hin t (by omega)
          rwa [position_congr bf bx y t x1, x3] at this
        · exact he
    · rcases Add_cases bf y hs with ⟨hiny, by1, hby⟩ | ⟨hiny, hey⟩
      · obtain ⟨y1, y2, y3, -⟩ := Add_ok_frame bf by1 y hby
        rw [hex, hby]
        show .error .indexOutOfRange = by1.Add x
        rcases Add_cases by1 x (by omega) with ⟨hin, -⟩ | ⟨-, he⟩
        · exfalso
          apply hinx
          intro t ht
          have := hin t (by omega)
          rwa [position_congr bf by1 x t y1, y3] at this
        · exact he.symm
      · rw [hex, hey]
        rfl

theorem addAll_cons_cons (bf : BloomFilter) (x y : List UInt8) (rest : List (List UInt8)) :
    bf.addAll (x :: y :: rest) =
      ((bf.Add x).bind fun b => b.Add y).bind fun b => b.addAll rest := by
  show (match bf.Add x with
    | .ok bf1 => BloomFilter.addAll bf1 (y :: rest)
    | .error e => .error e) = _
  cases bf.Add x with
  | error e => rfl
  | ok bf1 =>
    show (match bf1.Add y with
      | .ok bf2 => BloomFilter.addAll bf2 rest
      | .error e => .error e) = _
    cases h : bf1.Add y with
    | error e => simp [Except.bind, h]
    | ok bf2 => simp [Except.bind, h]

/-- A sequence of `Add` calls gives the same result in every order. -/
theorem addAll_perm {xs ys : List (List UInt8)} (h : xs.Perm ys) :
    ∀ bf : BloomFilter, bf.addAll xs = bf.addAll ys := by
  induction h with
  | nil => intro bf; rfl
  | cons x _ ih =>
    intro bf
    show (match bf.Add x with
      | .ok bf1 => BloomFilter.addAll bf1 _
      | .error e => .error e) = (match bf.Add x with
      | .ok bf1 => BloomFilter.addAll bf1 _
      | .error e => .error e)
    cases bf.Add x with
    | error e => rfl
    | ok bf1 => exact ih bf1
  | swap x y l =>
    intro bf
    rw [addAll_cons_cons, addAll_cons_cons, Add_bind_comm]
  | trans _ _ ih1 ih2 =>
    intro bf
    exact (ih1 bf).trans (ih2 bf)

/-- Running the same `Add` twice gives the result of running it once. -/
theorem Add_bind_self (bf : BloomFilter) (x : List UInt8) :
    ((bf.Add x).bind fun b => b.Add x) = bf.Add x := by
  cases h : bf.Add x with
  | error e => rfl
  | ok bf1 =>
    show bf1.Add x = .ok bf1
    obtain ⟨a1, a2, -, a4, -, a6, -⟩ := addFrom_ok x bf.hashCount 0 bf bf1 h
    have hs : bf1.hashCount = 0 ∨ bf1.size ≠ 0 := by
      rcases a4 with h0 | h0
      · left; omega
      · right; omega
    apply addFrom_noop x bf1.hashCount 0 bf1 hs
    intro t ht1 ht2
    rw [position_congr bf bf1 x t a1]
    exact a6 t ht1 (by omega)

theorem addAll_cons (bf : BloomFilter) (x : List UInt8) (rest : List (List UInt8)) :
    bf.addAll (x :: rest) = (bf.Add x).bind fun b => b.addAll rest := by
  show (match bf.Add x with
    | .ok bf1 => BloomFilter.addAll bf1 rest
    | .error e => .error e) = _
  cases bf.Add x with
  | error e => rfl
  | ok bf1 => rfl

/-- Adding once more an item that the rest of the sequence adds anyway does
not change the result. -/
theorem addAll_cons_of_mem {x : List UInt8} {l : List (List UInt8)} (hx : x ∈ l)
    (bf : BloomFilter) : bf.addAll (x :: l) = bf.addAll l := by
  obtain ⟨front, back, rfl⟩ := List.append_of_mem hx
  have hperm : (front ++ x :: back).Perm (x :: (front ++ back)) := List.perm_middle
  rw [addAll_perm (hperm.cons x) bf, addAll_cons_cons, Add_bind_self, ← addAll_cons]
  exact (addAll_perm hperm bf).symm

/-- Dropping the repetitions of a sequence of `Add` calls does not change the
result. -/
theorem addAll_dedup (l : List (List UInt8)) :
    ∀ bf : BloomFilter, bf.addAll l = bf.addAll l.dedup := by
  induction l with
  | nil => intro bf; rfl
  | cons a rest ih =>
    intro bf
    by_cases ha : a ∈ rest
    · rw [List.dedup_cons_of_mem ha, addAll_cons_of_mem ha bf]
      exact ih bf
    · rw [List.dedup_cons_of_not_mem ha, addAll_cons, addAll_cons]
      cases bf.Add a with
      | error e => rfl
      | ok bf1 => exact ih bf1

/-- Two sequences of `Add` calls with the same set of items give the same
result. -/
theorem addAll_set_ext {xs ys : List (List UInt8)} (h : ∀ z, z ∈ xs ↔ z ∈ ys)
    (bf : BloomFilter) : bf.addAll xs = bf.addAll ys := by
  have hperm : xs.dedup.Perm ys.dedup := by
    rw [List.perm_ext_iff_of_nodup (List.nodup_dedup xs) (List.nodup_dedup ys)]
    intro z
    rw [List.mem_dedup, List.mem_dedup]
    exact h z
  rw [addAll_dedup xs bf, addAll_dedup ys bf]
  exact addAll_perm hperm bf

theorem hash_mod (bf : BloomFilter) (item : List UInt8) (i : Nat) :
    bf.hash item i = bf.hash item (i % 256) := by
  simp [BloomFilter.hash, byteOfUint]

/-! ## Degenerate constructions -/

/-- C12: `NewWithEstimates` does not validate `n`. It has no error result; for
`n = 0` and `0 < p < 1` the computed size is `0` and the bit array is empty
(under the float64 facts `ZeroLaws`), and on that filter every `Add` and every
`Contains` that runs at least one hash round panics on the division by zero. -/
theorem newWithEstimates_zero_unvalidated {F : Type} (ops : Float64Ops F)
    (isZero isRegular inUnit : F → Prop) (laws : ZeroLaws ops isZero isRegular inUnit)
    (p : F) (hp : inUnit p) (item : List UInt8) :
    calculateOptimalSize ops 0 p = 0 ∧
      (NewWithEstimates ops 0 p).size = 0 ∧
      (NewWithEstimates ops 0 p).bitset = [] ∧
      (1 ≤ (NewWithEstimates ops 0 p).hashCount →
        (NewWithEstimates ops 0 p).Add item = .error .divideByZero ∧
        (NewWithEstimates ops 0 p).Contains item = .error .divideByZero) := by
  have hsize : calculateOptimalSize ops 0 p = 0 := by
    unfold calculateOptimalSize
    apply laws.toUint_zero
    apply laws.ceil_zero
    apply laws.div_zero _ _ _ laws.pow_log_two
    apply laws.mul_zero _ _ _ (laws.log_unit p hp)
    exact laws.neg_zero _ laws.ofUint_zero
  have hs : (NewWithEstimates ops 0 p).size = 0 := hsize
  have hb : (NewWithEstimates ops 0 p).bitset = [] := by
    show List.replicate (calculateOptimalSize ops 0 p) false = []
    rw [hsize]
    rfl
  refine ⟨hsize, hs, hb, ?_⟩
  intro hk
  obtain ⟨k, hk'⟩ : ∃ k, (NewWithEstimates ops 0 p).hashCount = k + 1 :=
    ⟨(NewWithEstimates ops 0 p).hashCount - 1, by omega⟩
  constructor
  · unfold BloomFilter.Add
    rw [hk', addFrom_succ, if_pos hs]
  · unfold BloomFilter.Contains
    rw [hk', containsFrom_succ, if_pos hs]
    rfl

/-- The estimate for `n = 0`, `p = 1/2` on exact rational arithmetic: size 0,
one hash round, and `Add("apple")` divides by zero. -/
theorem newWithEstimates_zero_unvalidated_witness :
    (0 < (1 / 2 : ℚ) ∧ (1 / 2 : ℚ) < 1) ∧
      calculateOptimalSize ratOps 0 (1 / 2) = 0 ∧
      (NewWithEstimates ratOps 0 (1 / 2)).size = 0 ∧
      (NewWithEstimates ratOps 0 (1 / 2)).bitset = [] ∧
      (1 ≤ (NewWithEstimates ratOps 0 (1 / 2)).hashCount →
        (NewWithEstimates ratOps 0 (1 / 2)).Add apple = .error .divideByZero ∧
        (NewWithEstimates ratOps 0 (1 / 2)).Contains apple = .error .divideByZero) :=
  ⟨by norm_num, newWithEstimates_zero_unvalidated ratOps _ _ _ ratOps_laws (1 / 2)
    (by norm_num) apple⟩

/-- C19: a zero hash count degenerates. On `NewC(size, 0)`, for every `size`,
`Add(x)` returns the filter unchanged, every sequence of `Add` calls does, and
`Contains(x)` answers true for every `x`, on the fresh filter and on the
cleared one, on which nothing was ever added. -/
theorem zero_hash_count_degenerates (size : Nat) (x : List UInt8) (items : List (List UInt8)) :
    (NewC size 0).Add x = .ok (NewC size 0) ∧
      (NewC size 0).addAll items = .ok (NewC size 0) ∧
      (NewC size 0).Contains x = .ok (true, NewC size 0) ∧
      (NewC size 0).Clear = NewC size 0 ∧
      (NewC size 0).Clear.Contains x = .ok (true, (NewC size 0).Clear) := by
  refine ⟨rfl, ?_, rfl, rfl, rfl⟩
  induction items with
  | nil => rfl
  | cons item rest ih => exact ih

/-! ## Hash rounds -/

/-- C15: the salt is one byte. `hash(item, i)` is the 64-bit FNV-1a hash of the
bytes of `item` followed by the single byte `i mod 256`; so `hash(item, i) =
hash(item, i + 256)`, and over the rounds `i < hashCount` of one item at most
256 different hash values, hence at most 256 different positions, occur. -/
theorem hash_salt_single_byte (bf : BloomFilter) (item : List UInt8) (i : Nat) :
    bf.hash item i = fnv1a64 (item ++ [UInt8.ofNat (i % 256)]) ∧
      (UInt8.ofNat (i % 256)).toNat = i % 256 ∧
      bf.hash item i = fnv1aStep (fnv1a64 item) (UInt8.ofNat (i % 256)) ∧
      bf.hash item i = bf.hash item (i + 256) ∧
      bf.hash item i = bf.hash item (i % 256) ∧
      (Finset.image (fun t => bf.hash item t) (Finset.range bf.hashCount)).card ≤ 256 ∧
      (Finset.image (fun t => bf.hash item t % bf.size) (Finset.range bf.hashCount)).card
        ≤ 256 := by
  have hcard : ∀ f : Nat → Nat, (∀ t, f t = f (t % 256)) →
      (Finset.image f (Finset.range bf.hashCount)).card ≤ 256 := by
    intro f hf
    have hsub : Finset.image f (Finset.range bf.hashCount)
        ⊆ Finset.image f (Finset.range 256) := by
      rw [Finset.image_subset_iff]
      intro t _
      rw [hf t]
      exact Finset.mem_image_of_mem f (Finset.mem_range.mpr (Nat.mod_lt _ (by norm_num)))
    calc (Finset.image f (Finset.range bf.hashCount)).card
        ≤ (Finset.image f (Finset.range 256)).card := Finset.card_le_card hsub
      _ ≤ (Finset.range 256).card := Finset.card_image_le
      _ = 256 := Finset.card_range 256
  refine ⟨rfl, ?_, ?_, ?_, hash_mod bf item i, ?_, ?_⟩
  · simp [UInt8.toNat, UInt8.ofNat, Fin.ofNat]
  · simp [BloomFilter.hash, byteOfUint, fnv1a64, List.foldl_append]
  · rw [hash_mod bf item i, hash_mod bf item (i + 256)]
    simp
  · exact hcard _ (fun t => hash_mod bf item t)
  · apply hcard
    intro t
    show bf.hash item t % bf.size = bf.hash item (t % 256) % bf.size
    rw [← hash_mod bf item t]

/-! ## Order of insertions -/

/-- C16: `Add` is monotone. On a filter with `size >= 1`, a completed `Add(x)`
never clears a set bit, so a `Contains(y)` that answered true before answers
true afterwards, and likewise after any completed sequence of `Add` calls;
`Contains` itself leaves the filter as it is. (`Add` returns whenever the bit
array has `size` bits.) -/
theorem add_monotone (bf : BloomFilter) (x y : List UInt8) (hs : 1 ≤ bf.size) :
    (bf.bitset.length = bf.size → ∃ bf', bf.Add x = .ok bf') ∧
      (∀ bf', bf.Add x = .ok bf' →
        (∀ j : Nat, bf.bitset[j]? = some true → bf'.bitset[j]? = some true) ∧
        (bf.Contains y = .ok (true, bf) → bf'.Contains y = .ok (true, bf'))) ∧
      (∀ items bf', bf.addAll items = .ok bf' →
        bf.Contains y = .ok (true, bf) → bf'.Contains y = .ok (true, bf')) ∧
      (∀ b s, bf.Contains y = .ok (b, s) → s = bf) := by
  have keep : ∀ bf' : BloomFilter, bf'.size = bf.size → bf'.hashCount = bf.hashCount →
      (∀ j : Nat, bf.bitset[j]? = some true → bf'.bitset[j]? = some true) →
      bf.Contains y = .ok (true, bf) → bf'.Contains y = .ok (true, bf') := by
    intro bf' h1 h2 hmono hc
    rw [Contains_true_iff, containsFrom_true_iff] at hc ⊢
    obtain ⟨-, hall⟩ := hc
    refine ⟨Or.inr (by omega), ?_⟩
    intro t ht1 ht2
    rw [position_congr bf bf' y t h1]
    exact hmono _ (hall t ht1 (by omega))
  refine ⟨fun hl => Add_total bf x hs hl, ?_, ?_, ?_⟩
  · intro bf' h
    obtain ⟨a1, a2, -, a4⟩ := Add_ok_frame bf bf' x h
    exact ⟨a4, keep bf' a1 a2 a4⟩
  · intro items bf' h
    obtain ⟨a1, a2, -, a4⟩ := addAll_ok_frame items bf bf' h
    exact keep bf' a1 a2 a4
  · intro b s h
    unfold BloomFilter.Contains at h
    cases hc : BloomFilter.containsFrom bf y bf.hashCount 0 with
    | error e => rw [hc] at h; cases h
    | ok b0 =>
      rw [hc] at h
      simp only [Except.map, Except.ok.injEq, Prod.mk.injEq] at h
      exact h.2.symm

/-- On the filter of 8 bits and 2 rounds that holds `"apple"`, adding
`"banana"` keeps the answer for `"apple"`. -/
theorem add_monotone_witness :
    1 ≤ (BloomFilter.mk [false, false, true, false, false, true, false, false] 8 2).size ∧
      (BloomFilter.mk [false, false, true, false, false, true, false, false] 8 2).Contains apple
        = .ok (true, ⟨[false, false, true, false, false, true, false, false], 8, 2⟩) ∧
      (BloomFilter.mk [false, false, true, false, false, true, false, false] 8 2).Add banana
        = .ok ⟨[true, false, true, true, false, true, false, false], 8, 2⟩ ∧
      (BloomFilter.mk [true, false, true, true, false, true, false, false] 8 2).Contains apple
        = .ok (true, ⟨[true, false, true, true, false, true, false, false], 8, 2⟩) :=
  ⟨by decide, rfl, rfl,
    ((add_monotone (BloomFilter.mk [false, false, true, false, false, true, false, false] 8 2)
      banana apple (by decide)).2.1 _ rfl).2 rfl⟩

/-- C18: `Add` commutes. On a filter with `size >= 1`, `Add(x); Add(y)` and
`Add(y); Add(x)` end alike (the same filter state, or both panic); they return
whenever the bit array has `size` bits; a sequence of `Add` calls ends in the
same state in every order of its items; and the final state depends only on
the set of items added: two sequences with the same items, in whatever order
and with whatever repetitions, end in the same state. -/
theorem add_commutes (bf : BloomFilter) (x y : List UInt8) (hs : 1 ≤ bf.size) :
    (((bf.Add x).bind fun b => b.Add y) = ((bf.Add y).bind fun b => b.Add x)) ∧
      (bf.bitset.length = bf.size →
        ∃ bf2, ((bf.Add x).bind fun b => b.Add y) = .ok bf2 ∧
          ((bf.Add y).bind fun b => b.Add x) = .ok bf2) ∧
      (∀ xs ys : List (List UInt8), xs.Perm ys → bf.addAll xs = bf.addAll ys) ∧
      (∀ xs ys : List (List UInt8), (∀ z, z ∈ xs ↔ z ∈ ys) →
        bf.addAll xs = bf.addAll ys) ∧
      (bf.bitset.length = bf.size →
        ∀ xs ys : List (List UInt8), (∀ z, z ∈ xs ↔ z ∈ ys) →
          ∃ bf2, bf.addAll xs = .ok bf2 ∧ bf.addAll ys = .ok bf2) := by
  refine ⟨Add_bind_comm bf x y, ?_, fun xs ys h => addAll_perm h bf,
    fun xs ys h => addAll_set_ext h bf, ?_⟩
  · intro hl
    obtain ⟨bf1, h1⟩ := Add_total bf x hs hl
    obtain ⟨a1, -, a3, -⟩ := Add_ok_frame bf bf1 x h1
    obtain ⟨bf2, h2⟩ := Add_total bf1 y (by omega) (by omega)
    have hxy : ((bf.Add x).bind fun b => b.Add y) = .ok bf2 := by
      rw [h1]
      exact h2
    exact ⟨bf2, hxy, by rw [← Add_bind_comm bf x y]; exact hxy⟩
  · intro hl xs ys h
    obtain ⟨bf2, h2⟩ := addAll_total xs bf hs hl
    exact ⟨bf2, h2, by rw [← addAll_set_ext h bf]; exact h2⟩

/-- Adding `"apple"` and `"banana"` to the empty filter of 8 bits and 2 rounds,
in both orders, and with `"apple"` added a second time. -/
theorem add_commutes_witness :
    1 ≤ (NewC 8 2).size ∧
      (((NewC 8 2).Add apple).bind fun b => b.Add banana)
        = .ok ⟨[true, false, true, true, false, true, false, false], 8, 2⟩ ∧
      ((((NewC 8 2).Add apple).bind fun b => b.Add banana)
        = (((NewC 8 2).Add banana).bind fun b => b.Add apple)) ∧
      (NewC 8 2).addAll [apple, banana, apple]
        = .ok ⟨[true, false, true, true, false, true, false, false], 8, 2⟩ ∧
      (NewC 8 2).addAll [apple, banana, apple] = (NewC 8 2).addAll [banana, apple] :=
  ⟨by decide, rfl, (add_commutes (NewC 8 2) apple banana (by decide)).1, rfl,
    (add_commutes (NewC 8 2) apple banana (by decide)).2.2.2.1
      [apple, banana, apple] [banana, apple] (by intro z; simp; tauto)⟩

end bloom

namespace mathx

/-! ## The probability gate -/

/-- C13: the decision rule of `TrueOnProba`. With a next draw `d`, `0 <= d < 1`,
the call answers true exactly when `d < proba`; so it answers true whenever
`proba >= 1` (as for `TrueOnProba(1)`) and false whenever `proba <= 0` (as for
`TrueOnProba(0)`), whatever the state of the generator; and the call advances
the generator by exactly one draw. -/
theorem trueOnProba_rule (p : Proba) (proba : Float64) (d : ℚ)
    (hd : p.r.draws p.r.pos = .finite d) (h0 : 0 ≤ d) (h1 : d < 1) :
    (p.TrueOnProba proba).1 = (Float64.finite d).lt proba ∧
      ((Float64.finite 1).le proba = true → (p.TrueOnProba proba).1 = true) ∧
      (proba.le (.finite 0) = true → (p.TrueOnProba proba).1 = false) ∧
      (p.TrueOnProba (.finite 1)).1 = true ∧
      (p.TrueOnProba (.finite 0)).1 = false ∧
      (p.TrueOnProba proba).2.r.pos = p.r.pos + 1 ∧
      (p.TrueOnProba proba).2.r.draws = p.r.draws := by
  have hrule : ∀ q : Float64, (p.TrueOnProba q).1 = (Float64.finite d).lt q := by
    intro q
    show (p.r.draws p.r.pos).lt q = _
    rw [hd]
  refine ⟨hrule proba, ?_, ?_, ?_, ?_, rfl, rfl⟩
  · intro hge
    rw [hrule]
    cases proba with
    | nan => cases hge
    | negInf => cases hge
    | posInf => rfl
    | finite q =>
      have : (1 : ℚ) ≤ q := by simpa [Float64.le] using hge
      simp only [Float64.lt, decide_eq_true_eq]
      linarith
  · intro hle
    rw [hrule]
    cases proba with
    | nan => rfl
    | negInf => rfl
    | posInf => cases hle
    | finite q =>
      have : q ≤ (0 : ℚ) := by simpa [Float64.le] using hle
      simp only [Float64.lt, decide_eq_false_iff_not, not_lt]
      linarith
  · rw [hrule]
    simp only [Float64.lt, decide_eq_true_eq]
    exact h1
  · rw [hrule]
    simp only [Float64.lt, decide_eq_false_iff_not, not_lt]
    exact h0

/-- A generator whose every draw is `1/2`, asked with `proba = 3/4`. -/
theorem trueOnProba_rule_witness :
    (Proba.TrueOnProba ⟨⟨fun _ => .finite (1 / 2), 0⟩⟩ (.finite (3 / 4))).1
        = (Float64.finite (1 / 2)).lt (.finite (3 / 4)) ∧
      (Proba.TrueOnProba ⟨⟨fun _ => .finite (1 / 2), 0⟩⟩ (.finite 1)).1 = true ∧
      (Proba.TrueOnProba ⟨⟨fun _ => .finite (1 / 2), 0⟩⟩ (.finite 0)).1 = false ∧
      (Proba.TrueOnProba ⟨⟨fun _ => .finite (1 / 2), 0⟩⟩ (.finite (3 / 4))).2.r.pos = 1 :=
  have h := trueOnProba_rule ⟨⟨fun _ => .finite (1 / 2), 0⟩⟩ (.finite (3 / 4)) (1 / 2) rfl
    (by norm_num) (by norm_num)
  ⟨h.1, h.2.2.2.1, h.2.2.2.2.1, h.2.2.2.2.2.1⟩

end mathx

namespace health

/-! ## Readiness -/

theorem allReady_iff (l : List Probe) :
    comboHealthManager.allReady l = true ↔ ∀ q, q ∈ l → q.IsReady = true := by
  induction l with
  | nil => simp [comboHealthManager.allReady]
  | cons a rest ih =>
    unfold comboHealthManager.allReady
    cases ha : a.IsReady with
    | false => simp [ha]
    | true => simp [ha, ih]

theorem foldl_addProbe (ps : List Probe) :
    ∀ m : comboHealthManager,
      (ps.foldl comboHealthManager.addProbe m).probes = m.probes ++ ps := by
  induction ps with
  | nil => intro m; simp
  | cons a rest ih =>
    intro m
    rw [List.foldl_cons, ih]
    simp [comboHealthManager.addProbe]

theorem IsReady_iff (m : comboHealthManager) :
    m.IsReady = true ↔ m.probes ≠ [] ∧ ∀ q, q ∈ m.probes → q.IsReady = true := by
  unfold comboHealthManager.IsReady
  cases hp : m.probes with
  | nil => simp
  | cons a rest =>
    rw [if_neg (by simp), allReady_iff]
    simp

/-- C17: readiness folding. `IsReady` of the manager is true exactly when it
holds at least one probe and every probe it holds is ready; the manager of
`newComboHealthManager` holds none and is not ready; `addProbe` puts the new
probe after the ones already held and leaves those as they are, so after
registering `ps` in order the manager holds exactly `ps` and is ready exactly
when `ps` is not empty and all of `ps` are ready. -/
theorem isReady_folds_probes (m : comboHealthManager) (probe : Probe) (ps : List Probe) :
    (m.IsReady = true ↔ m.probes ≠ [] ∧ ∀ q, q ∈ m.probes → q.IsReady = true) ∧
      newComboHealthManager.IsReady = false ∧
      (m.addProbe probe).probes = m.probes ++ [probe] ∧
      (∀ i : Nat, i < m.probes.length → (m.addProbe probe).probes[i]? = m.probes[i]?) ∧
      (m.addProbe probe).probes[m.probes.length]? = some probe ∧
      (ps.foldl comboHealthManager.addProbe newComboHealthManager).probes = ps ∧
      ((ps.foldl comboHealthManager.addProbe newComboHealthManager).IsReady = true ↔
        ps ≠ [] ∧ ∀ q, q ∈ ps → q.IsReady = true) := by
  have hreg : (ps.foldl comboHealthManager.addProbe newComboHealthManager).probes = ps := by
    rw [foldl_addProbe]
    rfl
  refine ⟨IsReady_iff m, rfl, rfl, ?_, ?_, hreg, ?_⟩
  · intro i hi
    show (m.probes ++ [probe])[i]? = m.probes[i]?
    exact List.getElem?_append_left hi
  · show (m.probes ++ [probe])[m.probes.length]? = some probe
    simp
  · rw [IsReady_iff, hreg]

end health
